import Mathlib

/-!
Verification development for the fiapinho-bot calendar synchronization
engine (`app/webhooks/sync_calendar/app.py`, `app/webhooks/sync_calendar/evens_api.py`,
`app/webhooks/core/fiap_auth.py`).

Events are JSON objects; we embed them as insertion-ordered association
lists from string keys to string values, matching Python dicts (keys are
unique in an actual dict, so the list length is the dict's field count).
Python truthiness of a fetched value (`if event_id:`) is embedded as
"present with a nonempty value".
-/

namespace Fiapinho

/-- A calendar event record: a JSON object, embedded as an association list
of string keys to string values (insertion ordered, as a Python dict). -/
abbrev Event := List (String × String)

/-- Python `event.get(k)`: the value stored under key `k`, if any. -/
def getVal (e : Event) (k : String) : Option String :=
  (e.find? (fun p => p.1 == k)).map (fun p => p.2)

/-- The event id as used behind Python truthiness tests (`if event_id:`):
`none` when the key is absent or its value is falsy (empty). -/
def eid (e : Event) : Option String :=
  match getVal e "id" with
  | none => none
  | some v => if v = "" then none else some v

/-- The event type behind the truthiness test `if event_type:`. -/
def etype (e : Event) : Option String :=
  match getVal e "type" with
  | none => none
  | some v => if v = "" then none else some v

/-- Whether a record carries a truthy id. -/
def hasId (e : Event) : Bool := (eid e).isSome

/-- `rawIs i s`: Python `s.get('id') == i` for a truthy candidate `i`
(the comparison used when replacing a stored record in `_process_events`
and when matching `updated_map` keys in `_update_stored_events`). -/
def rawIs (i : String) (s : Event) : Bool := getVal s "id" == some i

/-- The first stored record whose raw `id` value equals `i`. -/
def firstMatch (st : List Event) (i : String) : Option Event :=
  st.find? (rawIs i)

/-- `existing_ids` of `_process_events` (line 260): the truthy ids of the
records currently in the store. -/
def existingIds (store : List Event) : List String := store.filterMap eid

/-- Python `e.update(d)`: keys of `d` overwrite existing keys of `e` in
place; keys new to `e` are appended in the order they occur in `d`. -/
def updateEvent (e d : Event) : Event :=
  e.map (fun p => match getVal d p.1 with
    | some v => (p.1, v)
    | none => p) ++ d.filter (fun q => (getVal e q.1).isNone)

/-- Lookup in an insertion-ordered map embedded as an association list
(a Python dict keyed by event id). -/
def lookupMap (m : List (String × Event)) (i : String) : Option Event :=
  (m.find? (fun p => p.1 == i)).map (fun p => p.2)

/-- One step of the batch deduplication of `_process_events`
(lines 264-273): a record without a truthy id is skipped; a first
occurrence of an id is inserted; a later occurrence replaces the kept one
exactly when it has strictly more fields (`len(event) > len(kept)`). -/
def dedupStep (acc : List (String × Event)) (e : Event) : List (String × Event) :=
  match eid e with
  | none => acc
  | some i =>
    match lookupMap acc i with
    | none => acc ++ [(i, e)]
    | some c =>
      if e.length > c.length then
        acc.map (fun q => if q.1 == i then (i, e) else q)
      else acc

/-- `unique_events` after the dedup loop of `_process_events`, read off in
insertion order (`list(unique_events.values())`, line 274). -/
def dedup (batch : List Event) : List Event :=
  (batch.foldl dedupStep []).map (fun p => p.2)

/-- The `new_events` loop of `_process_events` (lines 278-287): collect, in
order, the deduplicated records whose truthy id is not among the stored
ids. -/
def newEvents (store : List Event) (deduped : List Event) : List Event :=
  deduped.foldl (fun acc e =>
    match eid e with
    | none => acc
    | some i => if (existingIds store).contains i then acc else acc ++ [e]) []

/-- The storage list seeded with the existing records (lines 292-298):
only stored records with a truthy id are carried over. -/
def storageInit (store : List Event) : List Event := store.filter hasId

/-- The replace-by-id loop of `_process_events` (lines 307-310): the first
record whose raw id equals `i` is overwritten by `e`; nothing else moves. -/
def replaceFirst (st : List Event) (i : String) (e : Event) : List Event :=
  match st with
  | [] => []
  | s :: rest => if rawIs i s then e :: rest else s :: replaceFirst rest i e

/-- One iteration of the storage loop of `_process_events` (lines 300-310):
append a genuinely new record, replace the first stored record sharing a
known id, skip records without a truthy id. -/
def storageStep (known : List String) (st : List Event) (e : Event) : List Event :=
  match eid e with
  | none => st
  | some i => if known.contains i then replaceFirst st i e else st ++ [e]

/-- `all_events_for_storage` as saved by `_process_events` (lines 289-313). -/
def processStorage (store : List Event) (deduped : List Event) : List Event :=
  deduped.foldl (storageStep (existingIds store)) (storageInit store)

/-- Result of one `_process_events` call: the returned new-record list and
the store content after the (single) save. -/
structure ProcessOut where
  newRecs : List Event
  store : List Event
  deriving Repr, DecidableEq

/-- `_process_events` (lines 239-321): an empty batch returns early without
saving; otherwise the batch is deduplicated, partitioned against the store,
and the combined list is saved. -/
def processEvents (store : List Event) (batch : List Event) : ProcessOut :=
  if batch = [] then ⟨[], store⟩
  else
    let d := dedup batch
    ⟨newEvents store d, processStorage store d⟩

/-- Outcome of one `get_calendar_event` detail call as consumed by
`_fetch_event_details` (lines 350-387): a top-level `{'error': ...}`
result, a first response item carrying a `data` payload, a first response
item merged directly (no `data` key), a response of unexpected shape
(empty or non-list, or a first item with a truthy `error`), or an
exception raised while the record was being processed. -/
inductive DetailRes where
  | errRes : DetailRes
  | okData : Event → DetailRes
  | okFlat : Event → DetailRes
  | badFormat : DetailRes
  | raised : DetailRes
  deriving Repr, DecidableEq

/-- The per-record behavior of `_fetch_event_details` (lines 335-387): a
record lacking a truthy id or a truthy type is passed through unchanged;
otherwise the detail result is merged into the record on success
(`event.update(...)`), and the base record is kept on any error, bad
response shape, or exception. -/
def enrichOne (detail : Event → DetailRes) (e : Event) : Event :=
  if (eid e).isNone || (etype e).isNone then e
  else
    match detail e with
    | .okData d => updateEvent e d
    | .okFlat d => updateEvent e d
    | _ => e

/-- One iteration of the `_fetch_event_details` loop, threading the
accumulated `updated_events` list and the list of records for which a
`get_calendar_event` call was actually issued. -/
def detailStep (detail : Event → DetailRes) (st : List Event × List Event)
    (e : Event) : List Event × List Event :=
  if (eid e).isNone || (etype e).isNone then (st.1 ++ [e], st.2)
  else (st.1 ++ [enrichOne detail e], st.2 ++ [e])

/-- `_fetch_event_details` over a list of new records, together with the
trace of records that triggered a detail API call. -/
def fetchEventDetailsT (detail : Event → DetailRes) (events : List Event) :
    List Event × List Event :=
  events.foldl (detailStep detail) ([], [])

/-- The `updated_events` list returned by `_fetch_event_details`. -/
def fetchEventDetails (detail : Event → DetailRes) (events : List Event) :
    List Event :=
  (fetchEventDetailsT detail events).1

/-- One step of the `updated_map` construction of `_update_stored_events`
(lines 446-450): records without a truthy id are skipped; a repeated id
overwrites the kept entry (last writer wins, insertion ordered). -/
def updStep (m : List (String × Event)) (e : Event) : List (String × Event) :=
  match eid e with
  | none => m
  | some i =>
    match lookupMap m i with
    | none => m ++ [(i, e)]
    | some _ => m.map (fun q => if q.1 == i then (i, e) else q)

/-- The `updated_map` of `_update_stored_events` (lines 446-450): a dict
keyed by truthy event id. -/
def updatedMap (updated : List Event) : List (String × Event) :=
  updated.foldl updStep []

/-- The replacement applied to one stored record by the update loop of
`_update_stored_events` (lines 453-456): a record whose raw id is a key of
the updated map is replaced by the mapped record; any other record is kept
as it is. -/
def updRepl (m : List (String × Event)) (s : Event) : Event :=
  match getVal s "id" with
  | none => s
  | some i =>
    match lookupMap m i with
    | some e => e
    | none => s

/-- `_update_stored_events` (lines 435-458). -/
def updateStoredEvents (store : List Event) (updated : List Event) : List Event :=
  store.map (updRepl (updatedMap updated))

/-- Result of one sync run through steps 3 and 4 of `execute`: the new
records found by `_process_events` and the final store content. -/
structure RunOut where
  newRecs : List Event
  store : List Event
  deriving Repr, DecidableEq

/-- Steps 3-4 of `execute` (lines 87-90) acting on the period store: run
`_process_events` on the fetched batch, enrich the returned new records
(`_fetch_event_details`), and, when any records were enriched, write them
back with `_update_stored_events` (line 390). -/
def syncRun (detail : Event → DetailRes) (store : List Event)
    (batch : List Event) : RunOut :=
  let p := processEvents store batch
  let enriched := fetchEventDetails detail p.newRecs
  let finalStore := if enriched = [] then p.store else updateStoredEvents p.store enriched
  ⟨p.newRecs, finalStore⟩

/-- Environment of one `execute` call (lines 51-105): whether
authentication succeeds, what `_fetch_calendar_events` yields (`none`
models the falsy "no events data" result of line 82; each sub-step of the
run catches its own exceptions internally), and the store content at the
start of the run. -/
structure ExecEnv where
  authOk : Bool
  fetched : Option (List Event)
  store : List Event
  deriving Repr, DecidableEq

/-- Observable outcome of one `execute` call: the returned boolean, whether
the transport session acquired at authentication was released
(`_cleanup`, lines 616-623), and the final store content. -/
structure ExecOut where
  success : Bool
  sessionReleased : Bool
  store : List Event
  deriving Repr, DecidableEq

/-- `execute` (lines 51-105). On authentication failure the run aborts
(the session helper closes its own transport, line 166 of fiap_auth.py).
After a successful authentication: a falsy fetch result returns `False`
at line 84 without reaching the `_cleanup` of line 97; on the successful
path steps 3-6 run and the session is released. -/
def executeModel (detail : Event → DetailRes) (env : ExecEnv) : ExecOut :=
  if !env.authOk then ⟨false, false, env.store⟩
  else
    match env.fetched with
    | none => ⟨false, false, env.store⟩
    | some batch =>
      let r := syncRun detail env.store batch
      ⟨true, true, r.store⟩

/-- First item of an upstream JSON array response as inspected by the sync
code: its `error` truthiness (`response_item.get('error', False)`), its
optional `data` payload, and the item itself viewed as a single event
(used by `_fetch_monthly_panel_events` line 205 when `data` is absent). -/
structure RespItem where
  err : Bool
  data : Option (List Event)
  self : Event
  deriving Repr, DecidableEq

/-- Result of one `get_calendar_panel_events` call for one day of the
monthly scan (lines 190-224): a top-level error dict, a JSON array
(possibly empty), or an exception while processing the day. -/
inductive DayRes where
  | errDict : String → DayRes
  | items : List RespItem → DayRes
  | raised : DayRes
  deriving Repr, DecidableEq

/-- The `day_events` list a single day of `_fetch_monthly_panel_events`
contributes (lines 192-205): nothing on a day error, an empty or non-list
response, an exception, or a first item with truthy `error`; the `data`
payload when present; the first item itself as a single event otherwise. -/
def dayEventsOf (d : DayRes) : List Event :=
  match d with
  | .errDict _ => []
  | .raised => []
  | .items [] => []
  | .items (h :: _) =>
    if h.err then []
    else
      match h.data with
      | some evs => evs
      | none => [h.self]

/-- The duplicate-avoiding accumulation of `_fetch_monthly_panel_events`
(lines 208-212): an event is appended only if it has a truthy id that was
not seen on an earlier day or earlier in the same day. -/
def scanStep (acc : List Event × List String) (e : Event) :
    List Event × List String :=
  match eid e with
  | none => acc
  | some i => if acc.2.contains i then acc else (acc.1 ++ [e], i :: acc.2)

/-- The `all_events` batch accumulated by `_fetch_monthly_panel_events`
over the days of the current month (lines 180-227). -/
def monthlyScan (days : List DayRes) : List Event :=
  (days.foldl (fun acc d => (dayEventsOf d).foldl scanStep acc) ([], [])).1

/-- Modelled from the claim's words, for comparison with `monthlyScan`:
keep the first record encountered for each id, discard every later record
with the same id, and drop records lacking an id entirely. -/
def firstSeenDedup (seen : List String) : List Event → List Event
  | [] => []
  | e :: es =>
    match eid e with
    | none => firstSeenDedup seen es
    | some i =>
      if seen.contains i then firstSeenDedup seen es
      else e :: firstSeenDedup (i :: seen) es

/-- A calendar API response as tested by `_fetch_calendar_events`
(lines 120-155): an error dict (`'error' in events_data`) or a JSON array
of response items. -/
inductive ApiRes where
  | errDict : String → ApiRes
  | listRes : List RespItem → ApiRes
  deriving Repr, DecidableEq

/-- Whether `'error' in events_data` holds for a response. -/
def ApiRes.isErr : ApiRes → Bool
  | .errDict _ => true
  | .listRes _ => false

/-- The upstream calls the fetch stage can issue: the fast-path panel call
for today, one panel call per day of the monthly scan, and the range call
`get_calendar_events` (present in evens_api.py lines 37-71; its use in
`_fetch_calendar_events` is commented out at line 121). -/
inductive FetchCall where
  | panelToday : FetchCall
  | panelDay : FetchCall
  | rangeFetch : FetchCall
  deriving Repr, DecidableEq

/-- The response-format handling of `_fetch_calendar_events`
(lines 136-155): a non-list or empty response yields `None`; a first item
with truthy `error` yields `None`; a first item without a `data` key is
logged and yields an empty event list; otherwise the `data` payload is
returned. -/
def parseEventsData : ApiRes → Option (List Event)
  | .errDict _ => none
  | .listRes [] => none
  | .listRes (h :: _) =>
    if h.err then none
    else
      match h.data with
      | some evs => some evs
      | none => some []

/-- `_fetch_calendar_events` (lines 107-165) together with the trace of
upstream calls it issues: the fast-path panel call always runs first; on a
panel error or a forced resync the code falls back to
`_fetch_monthly_panel_events` (line 129), which issues one panel call per
day and always returns `[{'data': all_events, 'error': False}]`
(lines 230-233). -/
def fetchCalendarEvents (panel : ApiRes) (resync : Bool) (days : List DayRes) :
    Option (List Event) × List FetchCall :=
  if panel.isErr || resync then
    let scanned := ApiRes.listRes [⟨false, some (monthlyScan days), []⟩]
    (parseEventsData scanned, FetchCall.panelToday :: days.map (fun _ => FetchCall.panelDay))
  else (parseEventsData panel, [FetchCall.panelToday])

/-- Classification of one login attempt of `FIAPSession.login`
(fiap_auth.py lines 54-131): the response text signals invalid
credentials; the request raised a transport exception; an HTTP 200
response carrying the cookie jar's `sesskey` value, if any; or any other
response (non-200 status without the invalid-credentials text). -/
inductive AttemptRes where
  | invalidCreds : AttemptRes
  | exn : String → AttemptRes
  | httpOk : Option String → AttemptRes
  | httpOther : AttemptRes
  deriving Repr, DecidableEq

/-- The session token an attempt yields under the truthiness test
`if sesskey:` (line 103): an HTTP 200 response with a nonempty `sesskey`
cookie. -/
def tokOf : AttemptRes → Option String
  | .httpOk (some s) => if s = "" then none else some s
  | _ => none

/-- Whether an attempt ended in a transport exception. -/
def isExn : AttemptRes → Bool
  | .exn _ => true
  | _ => false

/-- Observable outcome of `FIAPSession.login`: the returned boolean, the
number of attempts actually made, and the backoff sleeps performed, as
pairs of (attempt number, seconds slept). -/
structure LoginOut where
  success : Bool
  attemptsMade : Nat
  sleeps : List (Nat × Nat)
  deriving Repr, DecidableEq

/-- The `for attempt in range(1, max_retries + 1)` loop of
`FIAPSession.login`, as a recursion on the remaining fuel with `a` the
current attempt number (`a + fuel = maxR + 1` at every call): invalid
credentials return `False` on the last attempt and otherwise retry
without sleeping (line 89); an exception returns `False` on the last
attempt and otherwise sleeps 2 seconds before retrying (lines 124-131); an
HTTP 200 response with a truthy `sesskey` cookie returns `True`
(line 116); anything else falls through to the next attempt; an exhausted
loop returns `False` (line 133). -/
def loginAux (att : Nat → AttemptRes) (maxR : Nat) :
    Nat → Nat → List (Nat × Nat) → LoginOut
  | a, 0, sleeps => ⟨false, a - 1, sleeps⟩
  | a, fuel + 1, sleeps =>
    match att a with
    | .invalidCreds =>
      if a = maxR then ⟨false, a, sleeps⟩ else loginAux att maxR (a + 1) fuel sleeps
    | .exn _ =>
      if a = maxR then ⟨false, a, sleeps⟩
      else loginAux att maxR (a + 1) fuel (sleeps ++ [(a, 2)])
    | .httpOk sk =>
      if (tokOf (AttemptRes.httpOk sk)).isSome then ⟨true, a, sleeps⟩
      else loginAux att maxR (a + 1) fuel sleeps
    | .httpOther => loginAux att maxR (a + 1) fuel sleeps

/-- `FIAPSession.login` (lines 39-133) over a sequence of attempt
outcomes. -/
def login (att : Nat → AttemptRes) (maxR : Nat) : LoginOut :=
  loginAux att maxR 1 maxR []

/-- Serialization written by `_save_events` (`json.dump`, line 428),
embedded as a concrete rendering of the event list. -/
def serializeEvents (events : List Event) : String :=
  "[" ++ String.intercalate "," (events.map (fun e =>
    "(" ++ String.intercalate ";" (e.map (fun p => p.1 ++ "=" ++ p.2)) ++ ")")) ++ "]"

/-- The file content after `_save_events` (lines 416-433): `open(filename,
'w')` truncates the target file in place before `json.dump` streams the
serialization into it, so a write that fails after `k` characters leaves
the previous content `oldContent` destroyed and only a prefix of the new
serialization on disk; only a completed write yields the full new
content. -/
def saveEventsFile (oldContent : String) (events : List Event)
    (failAfter : Option Nat) : String :=
  match failAfter with
  | none => serializeEvents events
  | some k => (serializeEvents events).take k

/-- Merge rule for two batch records sharing one id, abstracted from the
dedup comparison of `_process_events` (lines 268-272): the first record is
kept unless a later one has strictly more fields. -/
def keepMoreComplete (o : Option Event) (e : Event) : Option Event :=
  match o with
  | none => some e
  | some c => if e.length > c.length then some e else some c

/-- The membership test of the new-record partition of `_process_events`:
a record counts as new when it carries a truthy id that is not among the
stored ids. -/
def newPred (store : List Event) (e : Event) : Bool :=
  match eid e with
  | none => false
  | some i => !((existingIds store).contains i)

/-- The guard of the enrichment skip branch of `_fetch_event_details`
(line 341): the record lacks a truthy id or a truthy type. -/
def lacksIdOrType (e : Event) : Bool := (eid e).isNone || (etype e).isNone

/-- An attempt sequence in which every attempt raises a transport
exception (used to instantiate the login theorems). -/
def attAllExn : Nat → AttemptRes := fun _ => AttemptRes.exn "boom"

/-- A detail-call environment in which every call returns an error result
(used to instantiate the sync theorems). -/
def detailAllErr : Event → DetailRes := fun _ => DetailRes.errRes

/-- A detail-call environment in which every call returns a payload adding
a `local` field (used to instantiate the sync theorems). -/
def detailAddLocal : Event → DetailRes := fun _ => DetailRes.okData [("local", "url")]

/-! ## Helper lemmas -/

theorem eid_spec {e : Event} {i : String} (h : eid e = some i) :
    getVal e "id" = some i ∧ i ≠ "" := by
  unfold eid at h
  split at h
  · exact absurd h (by simp)
  · next v hg =>
    split at h
    · exact absurd h (by simp)
    · next hv => cases h; exact ⟨hg, hv⟩

theorem eid_of_getVal {e : Event} {i : String} (hg : getVal e "id" = some i)
    (hi : i ≠ "") : eid e = some i := by
  unfold eid
  rw [hg]
  simp [hi]

theorem rawIs_iff {i : String} {s : Event} :
    rawIs i s = true ↔ getVal s "id" = some i := by
  unfold rawIs
  simp

theorem hasId_of_eid {e : Event} {i : String} (h : eid e = some i) :
    hasId e = true := by
  unfold hasId
  rw [h]
  rfl

theorem eid_of_rawIs_hasId {i : String} {s : Event} (hr : rawIs i s = true)
    (hh : hasId s = true) : eid s = some i := by
  rw [rawIs_iff] at hr
  unfold hasId eid at hh
  unfold eid
  rw [hr] at hh ⊢
  by_cases hi : i = ""
  · simp [hi] at hh
  · simp [hi]

theorem rawIs_false_of_ne {i j : String} {s : Event} (hij : i ≠ j)
    (hs : getVal s "id" = some j) : rawIs i s = false := by
  rw [Bool.eq_false_iff, Ne, rawIs_iff, hs]
  intro hc
  injection hc with hc
  exact hij hc.symm

theorem foldl_fixed {α β : Type _} {f : β → α → β} {b : β} :
    ∀ {l : List α}, (∀ a ∈ l, f b a = b) → l.foldl f b = b := by
  intro l h
  induction l with
  | nil => rfl
  | cons a t ih =>
    rw [List.foldl_cons, h a (by simp)]
    exact ih (fun x hx => h x (by simp [hx]))

theorem replaceFirst_of_firstMatch_none {st : List Event} {i : String}
    {e : Event} (h : firstMatch st i = none) : replaceFirst st i e = st := by
  induction st with
  | nil => rfl
  | cons s rest ih =>
    unfold firstMatch at h
    rw [List.find?_eq_none] at h
    have hs : rawIs i s = false := by
      have := h s (by simp)
      simpa using this
    unfold replaceFirst
    rw [hs]
    simp only [Bool.false_eq_true, if_false, List.cons.injEq, true_and]
    exact ih (by
      unfold firstMatch
      rw [List.find?_eq_none]
      exact fun x hx => h x (by simp [hx]))

theorem replaceFirst_self {st : List Event} {i : String} {e : Event}
    (h : firstMatch st i = some e) : replaceFirst st i e = st := by
  induction st with
  | nil => simp [firstMatch] at h
  | cons s rest ih =>
    unfold firstMatch at h
    unfold replaceFirst
    by_cases hs : rawIs i s = true
    · rw [List.find?_cons_of_pos _ hs] at h
      cases h
      rw [hs]
      simp
    · rw [List.find?_cons_of_neg _ (by simpa using hs)] at h
      have hs' : rawIs i s = false := by simpa using hs
      rw [hs']
      simp only [Bool.false_eq_true, if_false, List.cons.injEq, true_and]
      exact ih h

theorem firstMatch_replaceFirst_self {st : List Event} {i : String}
    {e : Event} (h : (firstMatch st i).isSome) (he : getVal e "id" = some i) :
    firstMatch (replaceFirst st i e) i = some e := by
  induction st with
  | nil => simp [firstMatch] at h
  | cons s rest ih =>
    unfold replaceFirst
    by_cases hs : rawIs i s = true
    · rw [hs]
      simp only [if_true]
      unfold firstMatch
      exact List.find?_cons_of_pos _ (by rw [rawIs_iff]; exact he)
    · have hs' : rawIs i s = false := by simpa using hs
      rw [hs']
      simp only [Bool.false_eq_true, if_false]
      unfold firstMatch at h ⊢
      rw [List.find?_cons_of_neg _ (by simpa using hs)] at h
      rw [List.find?_cons_of_neg _ (by simpa using hs)]
      exact ih h

theorem firstMatch_replaceFirst_ne {st : List Event} {i j : String}
    {e : Event} (hij : i ≠ j) (he : getVal e "id" = some j) :
    firstMatch (replaceFirst st j e) i = firstMatch st i := by
  induction st with
  | nil => rfl
  | cons s rest ih =>
    unfold replaceFirst
    by_cases hs : rawIs j s = true
    · rw [hs]
      simp only [if_true]
      unfold firstMatch
      have hse : rawIs i e = false := rawIs_false_of_ne hij he
      have hss : rawIs i s = false := rawIs_false_of_ne hij (rawIs_iff.mp hs)
      rw [List.find?_cons_of_neg _ (by simp [hse]),
        List.find?_cons_of_neg _ (by simp [hss])]
    · have hs' : rawIs j s = false := by simpa using hs
      rw [hs']
      simp only [Bool.false_eq_true, if_false]
      unfold firstMatch at ih ⊢
      by_cases ht : rawIs i s = true
      · rw [List.find?_cons_of_pos _ ht, List.find?_cons_of_pos _ ht]
      · rw [List.find?_cons_of_neg _ (by simpa using ht),
          List.find?_cons_of_neg _ (by simpa using ht)]
        exact ih

theorem filter_replaceFirst_ne {st : List Event} {i j : String} {e : Event}
    (hij : i ≠ j) (he : getVal e "id" = some j) :
    (replaceFirst st j e).filter (rawIs i) = st.filter (rawIs i) := by
  induction st with
  | nil => rfl
  | cons s rest ih =>
    unfold replaceFirst
    by_cases hs : rawIs j s = true
    · rw [hs]
      simp only [if_true]
      have hse : rawIs i e = false := rawIs_false_of_ne hij he
      have hss : rawIs i s = false := rawIs_false_of_ne hij (rawIs_iff.mp hs)
      rw [List.filter_cons, List.filter_cons, hse, hss]
      simp
    · have hs' : rawIs j s = false := by simpa using hs
      rw [hs']
      simp only [Bool.false_eq_true, if_false]
      rw [List.filter_cons, List.filter_cons, ih]

theorem mem_replaceFirst {st : List Event} {i : String} {e s : Event}
    (h : s ∈ replaceFirst st i e) : s ∈ st ∨ s = e := by
  induction st with
  | nil => simp [replaceFirst] at h
  | cons t rest ih =>
    unfold replaceFirst at h
    by_cases hs : rawIs i t = true
    · rw [hs] at h
      simp only [if_true] at h
      rcases List.mem_cons.mp h with h | h
      · exact Or.inr h
      · exact Or.inl (by simp [h])
    · have hs' : rawIs i t = false := by simpa using hs
      rw [hs'] at h
      simp only [Bool.false_eq_true, if_false] at h
      rcases List.mem_cons.mp h with h | h
      · exact Or.inl (by simp [h])
      · rcases ih h with h | h
        · exact Or.inl (by simp [h])
        · exact Or.inr h

theorem filterMap_eid_replaceFirst {st : List Event} {i : String} {e : Event}
    (he : eid e = some i) :
    (replaceFirst st i e).filterMap eid = st.filterMap eid := by
  induction st with
  | nil => rfl
  | cons s rest ih =>
    unfold replaceFirst
    by_cases hs : rawIs i s = true
    · rw [hs]
      simp only [if_true]
      rw [List.filterMap_cons, List.filterMap_cons, he]
      have hsi : eid s = some i := by
        rw [rawIs_iff] at hs
        exact eid_of_getVal hs (eid_spec he).2
      rw [hsi]
    · have hs' : rawIs i s = false := by simpa using hs
      rw [hs']
      simp only [Bool.false_eq_true, if_false]
      rw [List.filterMap_cons, List.filterMap_cons, ih]

theorem firstMatch_append_none {st : List Event} {i : String} {e : Event}
    (h : firstMatch st i = none) (he : getVal e "id" = some i) :
    firstMatch (st ++ [e]) i = some e := by
  unfold firstMatch at h ⊢
  rw [List.find?_append, h]
  simp [List.find?_cons_of_pos _ (rawIs_iff.mpr he)]

theorem firstMatch_append_ne {st : List Event} {i j : String} {e : Event}
    (hij : i ≠ j) (he : getVal e "id" = some j) :
    firstMatch (st ++ [e]) i = firstMatch st i := by
  unfold firstMatch
  rw [List.find?_append]
  have hse : rawIs i e = false := rawIs_false_of_ne hij he
  have hfe : List.find? (rawIs i) [e] = none := by
    rw [List.find?_eq_none]
    intro x hx
    rw [List.mem_singleton.mp hx]
    simp [hse]
  rw [hfe]
  cases st.find? (rawIs i) <;> rfl

theorem firstMatch_storageStep_ne {known : List String} {st : List Event}
    {i j : String} {e : Event} (he : eid e = some j) (hij : i ≠ j) :
    firstMatch (storageStep known st e) i = firstMatch st i := by
  simp only [storageStep, he]
  by_cases hk : known.contains j
  · rw [if_pos hk]
    exact firstMatch_replaceFirst_ne hij (eid_spec he).1
  · rw [if_neg hk]
    exact firstMatch_append_ne hij (eid_spec he).1

theorem filter_storageStep_ne {known : List String} {st : List Event}
    {i j : String} {e : Event} (he : eid e = some j) (hij : i ≠ j) :
    (storageStep known st e).filter (rawIs i) = st.filter (rawIs i) := by
  simp only [storageStep, he]
  by_cases hk : known.contains j
  · rw [if_pos hk]
    exact filter_replaceFirst_ne hij (eid_spec he).1
  · rw [if_neg hk]
    rw [List.filter_append]
    have hse : rawIs i e = false := rawIs_false_of_ne hij (eid_spec he).1
    simp [hse]

theorem hasId_storageStep {known : List String} {st : List Event} {e : Event}
    (h : ∀ s ∈ st, hasId s = true) :
    ∀ s ∈ storageStep known st e, hasId s = true := by
  cases he : eid e with
  | none => simp only [storageStep, he]; exact h
  | some i =>
    simp only [storageStep, he]
    by_cases hk : known.contains i
    · rw [if_pos hk]
      intro s hs
      rcases mem_replaceFirst hs with hs | hs
      · exact h s hs
      · rw [hs]; exact hasId_of_eid he
    · rw [if_neg hk]
      intro s hs
      rcases List.mem_append.mp hs with hs | hs
      · exact h s hs
      · rw [List.mem_singleton.mp hs]; exact hasId_of_eid he

theorem filterMap_eid_storageStep_sub {known : List String} {st : List Event}
    {e : Event} {j : String} (h : j ∈ st.filterMap eid) :
    j ∈ (storageStep known st e).filterMap eid := by
  cases he : eid e with
  | none => simp only [storageStep, he]; exact h
  | some i =>
    simp only [storageStep, he]
    by_cases hk : known.contains i
    · rw [if_pos hk, filterMap_eid_replaceFirst he]
      exact h
    · rw [if_neg hk, List.filterMap_append]
      exact List.mem_append.mpr (Or.inl h)

theorem foldl_storage_preserve_ids {known : List String} {j : String} :
    ∀ {d : List Event} {st : List Event}, j ∈ st.filterMap eid →
      j ∈ (d.foldl (storageStep known) st).filterMap eid := by
  intro d
  induction d with
  | nil => intro st h; exact h
  | cons e t ih =>
    intro st h
    rw [List.foldl_cons]
    exact ih (filterMap_eid_storageStep_sub h)

theorem foldl_storage_hasId {known : List String} :
    ∀ {d : List Event} {st : List Event}, (∀ s ∈ st, hasId s = true) →
      ∀ s ∈ d.foldl (storageStep known) st, hasId s = true := by
  intro d
  induction d with
  | nil => intro st h; exact h
  | cons e t ih =>
    intro st h
    rw [List.foldl_cons]
    exact ih (hasId_storageStep h)

theorem foldl_storage_firstMatch_preserve {known : List String} {i : String} :
    ∀ {l : List Event} {st : List Event},
      (∀ e ∈ l, ∃ j, eid e = some j ∧ j ≠ i) →
      firstMatch (l.foldl (storageStep known) st) i = firstMatch st i := by
  intro l
  induction l with
  | nil => intro st _; rfl
  | cons e t ih =>
    intro st h
    rw [List.foldl_cons]
    obtain ⟨j, hj, hji⟩ := h e (by simp)
    rw [ih (fun x hx => h x (by simp [hx]))]
    exact firstMatch_storageStep_ne hj (fun hc => hji hc.symm)

theorem foldl_storage_filter_preserve {known : List String} {i : String} :
    ∀ {l : List Event} {st : List Event},
      (∀ e ∈ l, ∃ j, eid e = some j ∧ j ≠ i) →
      (l.foldl (storageStep known) st).filter (rawIs i) = st.filter (rawIs i) := by
  intro l
  induction l with
  | nil => intro st _; rfl
  | cons e t ih =>
    intro st h
    rw [List.foldl_cons]
    obtain ⟨j, hj, hji⟩ := h e (by simp)
    rw [ih (fun x hx => h x (by simp [hx]))]
    exact filter_storageStep_ne hj (fun hc => hji hc.symm)

theorem filterMap_eid_storageInit {store : List Event} :
    (storageInit store).filterMap eid = store.filterMap eid := by
  unfold storageInit
  induction store with
  | nil => rfl
  | cons s rest ih =>
    rw [List.filter_cons, List.filterMap_cons]
    cases hs : eid s with
    | none =>
      have : hasId s = false := by unfold hasId; rw [hs]; rfl
      rw [this]
      simpa using ih
    | some i =>
      have : hasId s = true := hasId_of_eid hs
      rw [this]
      simp only [if_true, List.filterMap_cons, hs]
      rw [ih]

theorem firstMatch_storageInit_isSome_iff {store : List Event} {i : String}
    (hi : i ≠ "") :
    (firstMatch (storageInit store) i).isSome ↔ i ∈ existingIds store := by
  unfold firstMatch existingIds
  rw [List.find?_isSome]
  constructor
  · rintro ⟨s, hs, hp⟩
    have hid : hasId s = true := by
      unfold storageInit at hs
      exact (List.mem_filter.mp hs).2
    have : eid s = some i := eid_of_rawIs_hasId hp hid
    exact List.mem_filterMap.mpr ⟨s, (List.mem_filter.mp hs).1, this⟩
  · intro h
    obtain ⟨s, hs, hse⟩ := List.mem_filterMap.mp h
    refine ⟨s, ?_, ?_⟩
    · unfold storageInit
      exact List.mem_filter.mpr ⟨hs, hasId_of_eid hse⟩
    · exact rawIs_iff.mpr (eid_spec hse).1

theorem filter_storageInit_of_not_known {store : List Event} {i : String}
    (hi : i ≠ "") (h : i ∉ existingIds store) :
    (storageInit store).filter (rawIs i) = [] := by
  rw [List.filter_eq_nil_iff]
  intro s hs hp
  have hid : hasId s = true := (List.mem_filter.mp hs).2
  have hse : eid s = some i := eid_of_rawIs_hasId hp hid
  exact h (List.mem_filterMap.mpr ⟨s, (List.mem_filter.mp hs).1, hse⟩)

theorem contains_iff {l : List String} {a : String} :
    l.contains a = true ↔ a ∈ l := List.elem_iff

theorem firstMatch_storageStep_self {known : List String} {st : List Event}
    {e : Event} {i : String} (he : eid e = some i)
    (hiff : (firstMatch st i).isSome ↔ i ∈ known) :
    firstMatch (storageStep known st e) i = some e := by
  simp only [storageStep, he]
  by_cases hk : known.contains i
  · rw [if_pos hk]
    exact firstMatch_replaceFirst_self (hiff.mpr (contains_iff.mp hk)) (eid_spec he).1
  · rw [if_neg hk]
    have hnone : firstMatch st i = none := by
      cases hfm : firstMatch st i with
      | none => rfl
      | some a =>
        exact absurd (contains_iff.mpr (hiff.mp (by rw [hfm]; rfl))) hk
    exact firstMatch_append_none hnone (eid_spec he).1

theorem filter_storageStep_self_new {known : List String} {st : List Event}
    {e : Event} {i : String} (he : eid e = some i) (hk : i ∉ known)
    (hf : st.filter (rawIs i) = []) :
    (storageStep known st e).filter (rawIs i) = [e] := by
  simp only [storageStep, he]
  rw [if_neg (fun hc => hk (contains_iff.mp hc))]
  rw [List.filter_append, hf]
  simp [rawIs_iff.mpr (eid_spec he).1]

/-- Master invariant of the storage loop of `_process_events`: starting
from a seed whose records all carry truthy ids, with a batch of records
carrying pairwise distinct truthy ids, and with the known-id set agreeing
with what is findable in the seed, the loop (1) keeps every record
id-carrying, (2) leaves each batch record as the first raw-id match for
its id, and (3) makes each batch record with an unknown id the unique
record under its id. -/
theorem storage_fold_spec {known : List String} :
    ∀ (d : List Event) (st : List Event),
      ((d.filterMap eid).Nodup) →
      (∀ e ∈ d, (eid e).isSome) →
      (∀ s ∈ st, hasId s = true) →
      (∀ i, (∃ e ∈ d, eid e = some i) → ((firstMatch st i).isSome ↔ i ∈ known)) →
      (∀ i, (∃ e ∈ d, eid e = some i) → i ∉ known → st.filter (rawIs i) = []) →
      (∀ s ∈ d.foldl (storageStep known) st, hasId s = true) ∧
      (∀ e ∈ d, ∀ i, eid e = some i →
        firstMatch (d.foldl (storageStep known) st) i = some e) ∧
      (∀ e ∈ d, ∀ i, eid e = some i → i ∉ known →
        (d.foldl (storageStep known) st).filter (rawIs i) = [e]) := by
  intro d
  induction d with
  | nil =>
    intro st _ _ hst _ _
    refine ⟨hst, ?_, ?_⟩ <;> intro e he <;> exact absurd he (by simp)
  | cons e t ih =>
    intro st hnd hids hst hiff hflt
    obtain ⟨i0, hi0⟩ := Option.isSome_iff_exists.mp (hids e (by simp))
    have hfm0 : (e :: t).filterMap eid = i0 :: t.filterMap eid := by
      rw [List.filterMap_cons, hi0]
    rw [hfm0] at hnd
    have hnd0 : i0 ∉ t.filterMap eid := (List.nodup_cons.mp hnd).1
    have hndt : (t.filterMap eid).Nodup := (List.nodup_cons.mp hnd).2
    have htne : ∀ x ∈ t, ∀ j, eid x = some j → j ≠ i0 := by
      intro x hx j hj hc
      exact hnd0 (List.mem_filterMap.mpr ⟨x, hx, by rw [hj, hc]⟩)
    rw [List.foldl_cons]
    set st1 := storageStep known st e with hst1
    have hself : firstMatch st1 i0 = some e :=
      firstMatch_storageStep_self hi0 (hiff i0 ⟨e, by simp, hi0⟩)
    have hst1id : ∀ s ∈ st1, hasId s = true := hasId_storageStep hst
    have hiff1 : ∀ i, (∃ x ∈ t, eid x = some i) →
        ((firstMatch st1 i).isSome ↔ i ∈ known) := by
      intro i hex
      obtain ⟨x, hx, hxi⟩ := hex
      have hne : i ≠ i0 := htne x hx i hxi
      rw [hst1, firstMatch_storageStep_ne hi0 hne]
      exact hiff i ⟨x, by simp [hx], hxi⟩
    have hflt1 : ∀ i, (∃ x ∈ t, eid x = some i) → i ∉ known →
        st1.filter (rawIs i) = [] := by
      intro i hex hk
      obtain ⟨x, hx, hxi⟩ := hex
      have hne : i ≠ i0 := htne x hx i hxi
      rw [hst1, filter_storageStep_ne hi0 hne]
      exact hflt i ⟨x, by simp [hx], hxi⟩ hk
    obtain ⟨c1, c2, c3⟩ := ih st1 hndt (fun x hx => hids x (by simp [hx]))
      hst1id hiff1 hflt1
    refine ⟨c1, ?_, ?_⟩
    · intro x hx i hxi
      rcases List.mem_cons.mp hx with hx | hx
      · subst hx
        rw [hxi] at hi0
        cases hi0
        rw [foldl_storage_firstMatch_preserve (fun y hy => by
          obtain ⟨j, hj⟩ := Option.isSome_iff_exists.mp (hids y (by simp [hy]))
          exact ⟨j, hj, htne y hy j hj⟩)]
        exact hself
      · exact c2 x hx i hxi
    · intro x hx i hxi hk
      rcases List.mem_cons.mp hx with hx | hx
      · subst hx
        rw [hxi] at hi0
        cases hi0
        rw [foldl_storage_filter_preserve (fun y hy => by
          obtain ⟨j, hj⟩ := Option.isSome_iff_exists.mp (hids y (by simp [hy]))
          exact ⟨j, hj, htne y hy j hj⟩)]
        refine filter_storageStep_self_new hxi hk ?_
        exact hflt i0 ⟨x, by simp, hxi⟩ hk
      · exact c3 x hx i hxi hk

theorem lookupMap_none_iff {m : List (String × Event)} {i : String} :
    lookupMap m i = none ↔ ∀ p ∈ m, p.1 ≠ i := by
  unfold lookupMap
  rw [Option.map_eq_none', List.find?_eq_none]
  constructor
  · intro h p hp
    have := h p hp
    simpa using this
  · intro h p hp
    simpa using h p hp

theorem map_fst_replaceMap {m : List (String × Event)} {i : String}
    {e : Event} :
    (m.map (fun q => if q.1 == i then (i, e) else q)).map Prod.fst
      = m.map Prod.fst := by
  rw [List.map_map]
  apply List.map_congr_left
  intro q _
  by_cases hq : q.1 = i
  · simp [hq]
  · simp [hq]

theorem lookupMap_replaceMap_ne {m : List (String × Event)} {i j : String}
    {e : Event} (hij : i ≠ j) :
    lookupMap (m.map (fun q => if q.1 == j then (j, e) else q)) i
      = lookupMap m i := by
  induction m with
  | nil => rfl
  | cons q rest ih =>
    rw [List.map_cons]
    unfold lookupMap
    by_cases hq : q.1 = j
    · rw [if_pos (by simp [hq])]
      rw [List.find?_cons_of_neg _ (by simp; exact fun hc => hij hc.symm),
        List.find?_cons_of_neg _ (by simp [hq]; exact fun hc => hij hc.symm)]
      exact ih
    · rw [if_neg (by simp [hq])]
      by_cases hqi : q.1 = i
      · rw [List.find?_cons_of_pos _ (by simp [hqi]),
          List.find?_cons_of_pos _ (by simp [hqi])]
      · rw [List.find?_cons_of_neg _ (by simp [hqi]),
          List.find?_cons_of_neg _ (by simp [hqi])]
        exact ih

theorem lookupMap_replaceMap_self {m : List (String × Event)} {i : String}
    {c e : Event} (h : lookupMap m i = some c) :
    lookupMap (m.map (fun q => if q.1 == i then (i, e) else q)) i = some e := by
  induction m with
  | nil => simp [lookupMap] at h
  | cons q rest ih =>
    rw [List.map_cons]
    unfold lookupMap at h ⊢
    by_cases hq : q.1 = i
    · rw [if_pos (by simp [hq])]
      rw [List.find?_cons_of_pos _ (by simp)]
      rfl
    · rw [if_neg (by simp [hq])]
      rw [List.find?_cons_of_neg _ (by simp [hq])] at h
      rw [List.find?_cons_of_neg _ (by simp [hq])]
      exact ih h

theorem lookupMap_append_ne {m : List (String × Event)} {i j : String}
    {e : Event} (hij : i ≠ j) :
    lookupMap (m ++ [(j, e)]) i = lookupMap m i := by
  unfold lookupMap
  rw [List.find?_append]
  have : List.find? (fun p => p.1 == i) [(j, e)] = none := by
    rw [List.find?_eq_none]
    intro x hx
    rw [List.mem_singleton.mp hx]
    simp
    exact fun hc => hij hc.symm
  rw [this]
  cases List.find? (fun p => p.1 == i) m <;> rfl

theorem lookupMap_append_self_of_none {m : List (String × Event)} {i : String}
    {e : Event} (h : lookupMap m i = none) :
    lookupMap (m ++ [(i, e)]) i = some e := by
  unfold lookupMap at h ⊢
  rw [Option.map_eq_none'] at h
  rw [List.find?_append, h]
  simp

theorem lookupMap_mem_values {m : List (String × Event)} {i : String}
    {e : Event} (h : lookupMap m i = some e) : e ∈ m.map (fun p => p.2) := by
  unfold lookupMap at h
  rw [Option.map_eq_some'] at h
  obtain ⟨p, hp, hpe⟩ := h
  exact hpe ▸ List.mem_map.mpr ⟨p, List.mem_of_find?_eq_some hp, rfl⟩

theorem lookupMap_key {m : List (String × Event)} {i : String} {e : Event}
    (h : lookupMap m i = some e) : ∃ p ∈ m, p.1 = i ∧ p.2 = e := by
  unfold lookupMap at h
  rw [Option.map_eq_some'] at h
  obtain ⟨p, hp, hpe⟩ := h
  refine ⟨p, List.mem_of_find?_eq_some hp, ?_, hpe⟩
  have := List.find?_some hp
  simpa using this

theorem dedupAcc_inv : ∀ (batch : List Event) (acc : List (String × Event)),
    (∀ p ∈ acc, eid p.2 = some p.1) → ((acc.map Prod.fst).Nodup) →
    (∀ p ∈ batch.foldl dedupStep acc, eid p.2 = some p.1) ∧
    ((batch.foldl dedupStep acc).map Prod.fst).Nodup := by
  intro batch
  induction batch with
  | nil => intro acc h1 h2; exact ⟨h1, h2⟩
  | cons e t ih =>
    intro acc h1 h2
    rw [List.foldl_cons]
    cases he : eid e with
    | none =>
      simp only [dedupStep, he]
      exact ih acc h1 h2
    | some i =>
      simp only [dedupStep, he]
      split
      · next hl =>
        refine ih _ ?_ ?_
        · intro p hp
          rcases List.mem_append.mp hp with hp | hp
          · exact h1 p hp
          · rw [List.mem_singleton.mp hp]; exact he
        · rw [List.map_append]
          rw [List.nodup_append]
          refine ⟨h2, by simp, ?_⟩
          intro x hx
          simp only [List.map_cons, List.map_nil, List.mem_singleton]
          intro hxi
          rw [hxi] at hx
          obtain ⟨p, hp, hpi⟩ := List.mem_map.mp hx
          exact absurd hpi (lookupMap_none_iff.mp hl p hp)
      · next c hl =>
        split
        · refine ih _ ?_ ?_
          · intro p hp
            obtain ⟨q, hq, hqp⟩ := List.mem_map.mp hp
            by_cases hqi : q.1 = i
            · rw [if_pos (by simp [hqi])] at hqp
              rw [← hqp]
              exact he
            · rw [if_neg (by simp [hqi])] at hqp
              rw [← hqp]
              exact h1 q hq
          · rw [map_fst_replaceMap]
            exact h2
        · exact ih acc h1 h2

theorem map_snd_filterMap_eid {m : List (String × Event)}
    (h : ∀ p ∈ m, eid p.2 = some p.1) :
    (m.map (fun p => p.2)).filterMap eid = m.map Prod.fst := by
  induction m with
  | nil => rfl
  | cons p rest ih =>
    rw [List.map_cons, List.filterMap_cons, h p (by simp), List.map_cons]
    rw [ih (fun q hq => h q (by simp [hq]))]

theorem dedup_acc_spec {batch : List Event} :
    (∀ p ∈ batch.foldl dedupStep [], eid p.2 = some p.1) ∧
    ((batch.foldl dedupStep []).map Prod.fst).Nodup :=
  dedupAcc_inv batch [] (by simp) (by simp)

theorem dedup_mem_eid {batch : List Event} :
    ∀ e ∈ dedup batch, (eid e).isSome := by
  intro e he
  unfold dedup at he
  obtain ⟨p, hp, hpe⟩ := List.mem_map.mp he
  rw [← hpe, dedup_acc_spec.1 p hp]
  rfl

theorem dedup_ids_nodup {batch : List Event} :
    ((dedup batch).filterMap eid).Nodup := by
  unfold dedup
  rw [map_snd_filterMap_eid dedup_acc_spec.1]
  exact dedup_acc_spec.2

theorem newEvents_eq_filter {store : List Event} :
    ∀ (d : List Event), newEvents store d = d.filter (newPred store) := by
  have haux : ∀ (d : List Event) (acc : List Event),
      d.foldl (fun acc e =>
        match eid e with
        | none => acc
        | some i => if (existingIds store).contains i then acc else acc ++ [e]) acc
      = acc ++ d.filter (newPred store) := by
    intro d
    induction d with
    | nil => intro acc; simp
    | cons e t ih =>
      intro acc
      rw [List.foldl_cons, List.filter_cons]
      cases he : eid e with
      | none =>
        simp only [newPred, he]
        simp only [Bool.false_eq_true, if_false]
        exact ih acc
      | some i =>
        simp only [newPred, he]
        by_cases hc : (existingIds store).contains i
        · simp only [hc, if_pos, Bool.not_true, Bool.false_eq_true, if_false]
          exact ih acc
        · have hc' : (existingIds store).contains i = false := by simpa using hc
          simp only [hc', Bool.not_false, if_true, Bool.false_eq_true, if_false]
          rw [ih (acc ++ [e])]
          simp
  intro d
  unfold newEvents
  rw [haux d []]
  simp

theorem updatedMap_fold_inv {C : Event → Prop} :
    ∀ (u : List Event) (acc : List (String × Event)),
      (∀ p ∈ acc, eid p.2 = some p.1 ∧ C p.2) → (∀ e ∈ u, C e) →
      ∀ p ∈ u.foldl updStep acc, eid p.2 = some p.1 ∧ C p.2 := by
  intro u
  induction u with
  | nil => intro acc hacc _; exact hacc
  | cons e t ih =>
    intro acc hacc hu
    rw [List.foldl_cons]
    refine ih _ ?_ (fun x hx => hu x (by simp [hx]))
    cases he : eid e with
    | none => simp only [updStep, he]; exact hacc
    | some i =>
      simp only [updStep, he]
      split
      · intro p hp
        rcases List.mem_append.mp hp with hp | hp
        · exact hacc p hp
        · rw [List.mem_singleton.mp hp]
          exact ⟨he, hu e (by simp)⟩
      · intro p hp
        obtain ⟨q, hq, hqp⟩ := List.mem_map.mp hp
        by_cases hqi : q.1 = i
        · rw [if_pos (by simp [hqi])] at hqp
          rw [← hqp]
          exact ⟨he, hu e (by simp)⟩
        · rw [if_neg (by simp [hqi])] at hqp
          rw [← hqp]
          exact hacc q hq

theorem updatedMap_inv {u : List Event} :
    ∀ p ∈ updatedMap u, eid p.2 = some p.1 ∧ p.2 ∈ u := by
  intro p hp
  exact updatedMap_fold_inv u [] (by simp) (fun e he => he) p hp

theorem lookupMap_updatedMap_spec {u : List Event} {i : String} {e : Event}
    (h : lookupMap (updatedMap u) i = some e) :
    eid e = some i ∧ e ∈ u ∧ i ≠ "" := by
  obtain ⟨p, hp, hpi, hpe⟩ := lookupMap_key h
  obtain ⟨hpeid, hpu⟩ := updatedMap_inv p hp
  rw [hpi, hpe] at hpeid
  rw [hpe] at hpu
  exact ⟨hpeid, hpu, (eid_spec hpeid).2⟩

theorem updRepl_eid {u : List Event} {s : Event} :
    eid (updRepl (updatedMap u) s) = eid s := by
  unfold updRepl
  split
  · rfl
  · next i hg =>
    split
    · next e hl =>
      obtain ⟨hei, _, hine⟩ := lookupMap_updatedMap_spec hl
      rw [hei, eid_of_getVal hg hine]
    · rfl

theorem existingIds_updateStoredEvents {st : List Event} {u : List Event} :
    existingIds (updateStoredEvents st u) = existingIds st := by
  unfold existingIds updateStoredEvents
  induction st with
  | nil => rfl
  | cons s rest ih =>
    rw [List.map_cons, List.filterMap_cons, List.filterMap_cons]
    rw [updRepl_eid]
    cases eid s with
    | none => exact ih
    | some i => rw [ih]

/-- The storage list written by `_process_events` satisfies the master
invariant: id-carrying records only, each deduplicated batch record is the
first raw-id match for its id, and each genuinely new batch record is the
unique record under its id. -/
theorem processStorage_spec (store batch : List Event) :
    (∀ s ∈ processStorage store (dedup batch), hasId s = true) ∧
    (∀ e ∈ dedup batch, ∀ i, eid e = some i →
      firstMatch (processStorage store (dedup batch)) i = some e) ∧
    (∀ e ∈ dedup batch, ∀ i, eid e = some i → i ∉ existingIds store →
      (processStorage store (dedup batch)).filter (rawIs i) = [e]) := by
  unfold processStorage
  refine storage_fold_spec (dedup batch) (storageInit store) dedup_ids_nodup
    dedup_mem_eid ?_ ?_ ?_
  · intro s hs
    exact (List.mem_filter.mp hs).2
  · intro i hex
    obtain ⟨e, _, hei⟩ := hex
    exact firstMatch_storageInit_isSome_iff (eid_spec hei).2
  · intro i hex hk
    obtain ⟨e, _, hei⟩ := hex
    exact filter_storageInit_of_not_known (eid_spec hei).2 hk

theorem existingIds_processStorage {store batch : List Event} {i : String}
    (h : i ∈ existingIds store) :
    i ∈ existingIds (processStorage store (dedup batch)) := by
  unfold processStorage existingIds
  apply foldl_storage_preserve_ids
  rw [filterMap_eid_storageInit]
  exact h

theorem dedup_ids_in_processStorage {store batch : List Event} {e : Event}
    {i : String} (he : e ∈ dedup batch) (hei : eid e = some i) :
    i ∈ existingIds (processStorage store (dedup batch)) := by
  have h1 := (processStorage_spec store batch).2.1 e he i hei
  unfold firstMatch at h1
  exact List.mem_filterMap.mpr
    ⟨e, List.mem_of_find?_eq_some h1, hei⟩

theorem fetchEventDetailsT_spec {detail : Event → DetailRes} :
    ∀ (l : List Event) (acc : List Event × List Event),
      l.foldl (detailStep detail) acc
        = (acc.1 ++ l.map (enrichOne detail),
           acc.2 ++ l.filter (fun e => !((eid e).isNone || (etype e).isNone))) := by
  intro l
  induction l with
  | nil => intro acc; simp
  | cons e t ih =>
    intro acc
    rw [List.foldl_cons, List.filter_cons, List.map_cons]
    by_cases hg : ((eid e).isNone || (etype e).isNone) = true
    · have henr : enrichOne detail e = e := by
        unfold enrichOne
        rw [if_pos hg]
      rw [henr]
      have hstep : detailStep detail acc e = (acc.1 ++ [e], acc.2) := by
        unfold detailStep
        rw [if_pos hg]
      rw [hstep, ih, hg]
      simp
    · have hg' : ((eid e).isNone || (etype e).isNone) = false := Bool.eq_false_iff.mpr hg
      have hstep : detailStep detail acc e
          = (acc.1 ++ [enrichOne detail e], acc.2 ++ [e]) := by
        unfold detailStep
        rw [if_neg hg]
      rw [hstep, ih, hg']
      simp

theorem fetchEventDetails_eq_map {detail : Event → DetailRes} {l : List Event} :
    fetchEventDetails detail l = l.map (enrichOne detail) := by
  unfold fetchEventDetails fetchEventDetailsT
  rw [fetchEventDetailsT_spec]
  simp

theorem fetchEventDetails_id {detail : Event → DetailRes} {l : List Event}
    (h : ∀ e, enrichOne detail e = e) : fetchEventDetails detail l = l := by
  rw [fetchEventDetails_eq_map]
  calc l.map (enrichOne detail) = l.map id := List.map_congr_left (fun e _ => h e)
  _ = l := List.map_id l

theorem syncRun_nil {detail : Event → DetailRes} {store : List Event} :
    syncRun detail store [] = ⟨[], store⟩ := rfl

theorem syncRun_ne_nil {detail : Event → DetailRes} {store batch : List Event}
    (hb : batch ≠ []) :
    syncRun detail store batch
      = ⟨newEvents store (dedup batch),
         if fetchEventDetails detail (newEvents store (dedup batch)) = []
         then processStorage store (dedup batch)
         else updateStoredEvents (processStorage store (dedup batch))
           (fetchEventDetails detail (newEvents store (dedup batch)))⟩ := by
  simp only [syncRun, processEvents, if_neg hb]

theorem existingIds_syncRun {detail : Event → DetailRes}
    {store batch : List Event} {i : String} (h : i ∈ existingIds store) :
    i ∈ existingIds ((syncRun detail store batch).store) := by
  by_cases hb : batch = []
  · rw [hb, syncRun_nil]
    exact h
  · rw [syncRun_ne_nil hb]
    simp only
    split
    · exact existingIds_processStorage h
    · rw [existingIds_updateStoredEvents]
      exact existingIds_processStorage h

theorem dedup_nil : dedup [] = [] := rfl

theorem dedup_ids_in_syncRun {detail : Event → DetailRes}
    {store batch : List Event} {e : Event} {i : String}
    (he : e ∈ dedup batch) (hei : eid e = some i) :
    i ∈ existingIds ((syncRun detail store batch).store) := by
  have hb : batch ≠ [] := by
    intro hb
    rw [hb, dedup_nil] at he
    exact absurd he (by simp)
  rw [syncRun_ne_nil hb]
  simp only
  split
  · exact dedup_ids_in_processStorage he hei
  · rw [existingIds_updateStoredEvents]
    exact dedup_ids_in_processStorage he hei

/-! ## Claims -/

/-- C2 (counterexample): the claim "every record present in the store when
the run starts is still present after the run" fails on the code: a stored
record lacking an id is dropped by `_process_events` when a nonempty batch
is saved (lines 294-298 carry over only records with a truthy id). -/
theorem sync_deletes_idless_record :
    [("content", "x")] ∈ ([[("content", "x")]] : List Event) ∧
    [("content", "x")]
      ∉ ((syncRun detailAllErr [[("content", "x")]] [[("id", "1")]]).store) := by
  constructor
  · decide
  · decide

/-- C2 (amended): a sync run never deletes a stored record that carries a
truthy id — its id is still present in the store after the run (the record
itself possibly replaced, under the same id); only records lacking a
truthy id can be dropped. -/
theorem sync_preserves_id_records (detail : Event → DetailRes)
    (store batch : List Event) (i : String) (h : i ∈ existingIds store) :
    i ∈ existingIds ((syncRun detail store batch).store) :=
  existingIds_syncRun h

/-- Witness for C2's amended theorem at a concrete store and batch. -/
theorem sync_preserves_id_records_witness :
    "7" ∈ existingIds [[("id", "7"), ("content", "kept")]] ∧
    "7" ∈ existingIds ((syncRun detailAllErr [[("id", "7"), ("content", "kept")]]
      [[("id", "1")]]).store) :=
  ⟨by decide, sync_preserves_id_records detailAllErr _ _ "7" (by decide)⟩

/-- C6: the record set returned by `_process_events` is exactly the
deduplicated fetched records whose truthy id is not among the stored ids;
a deduplicated record whose id is already stored is persisted — it
replaces the stored version as the first record under that id in the
single store save — but is excluded from the returned new-record set. -/
theorem new_set_characterization (store batch : List Event) :
    (processEvents store batch).newRecs = (dedup batch).filter (newPred store) ∧
    (∀ e ∈ dedup batch, ∀ i, eid e = some i → i ∈ existingIds store →
      firstMatch ((processEvents store batch).store) i = some e ∧
      e ∉ (processEvents store batch).newRecs) := by
  constructor
  · by_cases hb : batch = []
    · rw [hb]
      rfl
    · simp only [processEvents, if_neg hb]
      exact newEvents_eq_filter (dedup batch)
  · intro e he i hei hk
    have hb : batch ≠ [] := by
      intro hb
      rw [hb, dedup_nil] at he
      exact absurd he (by simp)
    simp only [processEvents, if_neg hb]
    constructor
    · exact (processStorage_spec store batch).2.1 e he i hei
    · rw [newEvents_eq_filter]
      intro hmem
      have hpred := (List.mem_filter.mp hmem).2
      unfold newPred at hpred
      rw [hei] at hpred
      simp [contains_iff.mpr hk] at hpred
      exact hpred hk

theorem updateStoredEvents_new_fixed (store batch : List Event) :
    updateStoredEvents (processStorage store (dedup batch))
      ((dedup batch).filter (newPred store))
      = processStorage store (dedup batch) := by
  unfold updateStoredEvents
  have hpt : ∀ s ∈ processStorage store (dedup batch),
      updRepl (updatedMap ((dedup batch).filter (newPred store))) s = s := by
    intro s hs
    unfold updRepl
    split
    · rfl
    · next i hg =>
      split
      · next e hl =>
        obtain ⟨hei, hmem, hine⟩ := lookupMap_updatedMap_spec hl
        have hd : e ∈ dedup batch := (List.mem_filter.mp hmem).1
        have hnp : newPred store e = true := (List.mem_filter.mp hmem).2
        have hnotin : i ∉ existingIds store := by
          unfold newPred at hnp
          rw [hei] at hnp
          intro hin
          simp [contains_iff.mpr hin] at hnp
          exact hnp hin
        have hflt := (processStorage_spec store batch).2.2 e hd i hei hnotin
        have hsin : s ∈ (processStorage store (dedup batch)).filter (rawIs i) :=
          List.mem_filter.mpr ⟨hs, rawIs_iff.mpr hg⟩
        rw [hflt] at hsin
        exact (List.mem_singleton.mp hsin).symm
      · rfl
  have h2 : (processStorage store (dedup batch)).map
      (updRepl (updatedMap ((dedup batch).filter (newPred store))))
      = (processStorage store (dedup batch)).map id :=
    List.map_congr_left (fun s hs => hpt s hs)
  rw [h2, List.map_id]

theorem processStorage_idem (store batch : List Event) :
    processStorage (processStorage store (dedup batch)) (dedup batch)
      = processStorage store (dedup batch) := by
  have hinit : storageInit (processStorage store (dedup batch))
      = processStorage store (dedup batch) := by
    unfold storageInit
    rw [List.filter_eq_self]
    exact (processStorage_spec store batch).1
  show (dedup batch).foldl
      (storageStep (existingIds (processStorage store (dedup batch))))
      (storageInit (processStorage store (dedup batch)))
    = processStorage store (dedup batch)
  rw [hinit]
  apply foldl_fixed
  intro e he
  obtain ⟨i, hei⟩ := Option.isSome_iff_exists.mp (dedup_mem_eid e he)
  have hfm : firstMatch (processStorage store (dedup batch)) i = some e :=
    (processStorage_spec store batch).2.1 e he i hei
  have hmem : i ∈ existingIds (processStorage store (dedup batch)) :=
    dedup_ids_in_processStorage he hei
  simp only [storageStep, hei]
  rw [if_pos (contains_iff.mpr hmem)]
  exact replaceFirst_self hfm

theorem enrichOne_allErr : ∀ e, enrichOne detailAllErr e = e := by
  intro e
  unfold enrichOne detailAllErr
  split <;> rfl

/-- C1 (counterexample): the claim "running the sync twice with an
unchanged upstream batch leaves the store unchanged after the second run"
fails on the code: when the first run's detail enrichment added a field
(here a `local` URL), the second run's `_process_events` replaces the
enriched stored record with the raw batch record, and since the new set
is empty no re-enrichment happens — the store changes. -/
theorem second_sync_run_changes_enriched_store :
    (syncRun detailAddLocal
        ((syncRun detailAddLocal [] [[("id", "1"), ("type", "Live")]]).store)
        [[("id", "1"), ("type", "Live")]]).store
      ≠ (syncRun detailAddLocal [] [[("id", "1"), ("type", "Live")]]).store := by
  decide

/-- C1 (amended): for every store, batch, and detail environment, the
second of two identical sync runs returns an empty new-record set; and the
store is additionally unchanged by the second run provided the detail
enrichment left every record unchanged during the first run (for example,
when every detail call errors). In general the second run resets each
fetched record's stored version to the raw batch version. -/
theorem second_sync_run_empty_new_and_stable (detail : Event → DetailRes)
    (store batch : List Event) :
    (syncRun detail ((syncRun detail store batch).store) batch).newRecs = [] ∧
    ((∀ e, enrichOne detail e = e) →
      (syncRun detail ((syncRun detail store batch).store) batch).store
        = (syncRun detail store batch).store) := by
  by_cases hb : batch = []
  · subst hb
    rw [syncRun_nil, syncRun_nil]
    exact ⟨rfl, fun _ => rfl⟩
  · have hnew2 : newEvents ((syncRun detail store batch).store) (dedup batch)
        = [] := by
      rw [newEvents_eq_filter, List.filter_eq_nil_iff]
      intro e he
      obtain ⟨i, hei⟩ := Option.isSome_iff_exists.mp (dedup_mem_eid e he)
      have hin : i ∈ existingIds ((syncRun detail store batch).store) :=
        dedup_ids_in_syncRun he hei
      unfold newPred
      rw [hei]
      simp [contains_iff.mpr hin]
      exact hin
    constructor
    · rw [syncRun_ne_nil hb]
      exact hnew2
    · intro hid
      have hr1 : (syncRun detail store batch).store
          = processStorage store (dedup batch) := by
        rw [syncRun_ne_nil hb]
        simp only
        rw [fetchEventDetails_id hid]
        split
        · rfl
        · rw [newEvents_eq_filter]
          exact updateStoredEvents_new_fixed store batch
      rw [syncRun_ne_nil hb]
      simp only
      rw [hnew2]
      have hfd : fetchEventDetails detail [] = ([] : List Event) := rfl
      rw [hfd, if_pos rfl, hr1]
      exact processStorage_idem store batch

/-- Witness for C1's amended theorem at a concrete store, batch, and
all-error detail environment. -/
theorem second_sync_run_empty_new_and_stable_witness :
    (syncRun detailAllErr ((syncRun detailAllErr [] [[("id", "1")]]).store)
      [[("id", "1")]]).newRecs = [] ∧
    (syncRun detailAllErr ((syncRun detailAllErr [] [[("id", "1")]]).store)
      [[("id", "1")]]).store = (syncRun detailAllErr [] [[("id", "1")]]).store := by
  have h := second_sync_run_empty_new_and_stable detailAllErr [] [[("id", "1")]]
  exact ⟨h.1, h.2 enrichOne_allErr⟩

theorem lookupMap_eq_of_nodup {m : List (String × Event)} {p : String × Event}
    {i : String} (hnd : (m.map Prod.fst).Nodup) (hp : p ∈ m) (hpi : p.1 = i) :
    lookupMap m i = some p.2 := by
  induction m with
  | nil => exact absurd hp (by simp)
  | cons q rest ih =>
    rw [List.map_cons, List.nodup_cons] at hnd
    rcases List.mem_cons.mp hp with hpq | hpr
    · subst hpq
      unfold lookupMap
      rw [List.find?_cons_of_pos _ (by simp [hpi])]
      rfl
    · have hqi : q.1 ≠ i := by
        intro hc
        exact hnd.1 (hc ▸ hpi ▸ List.mem_map.mpr ⟨p, hpr, rfl⟩)
      unfold lookupMap
      rw [List.find?_cons_of_neg _ (by simp [hqi])]
      exact ih hnd.2 hpr

theorem dedup_lookup_char :
    ∀ (batch : List Event) (acc : List (String × Event)) (i : String),
      lookupMap (batch.foldl dedupStep acc) i
        = (batch.filter (fun e => eid e == some i)).foldl keepMoreComplete
            (lookupMap acc i) := by
  intro batch
  induction batch with
  | nil => intro acc i; rfl
  | cons e t ih =>
    intro acc i
    rw [List.foldl_cons, List.filter_cons]
    cases he : eid e with
    | none =>
      have hne : ((none : Option String) == some i) = false := rfl
      rw [hne]
      simp only [Bool.false_eq_true, if_false]
      simp only [dedupStep, he]
      exact ih acc i
    | some j =>
      by_cases hji : j = i
      · subst hji
        have heq : ((some j : Option String) == some j) = true := by simp
        rw [heq]
        simp only [if_true]
        simp only [dedupStep, he]
        split
        · next hl =>
          rw [ih, lookupMap_append_self_of_none hl, hl, List.foldl_cons]
          rfl
        · next c hl =>
          split
          · next hlen =>
            rw [ih, lookupMap_replaceMap_self hl, hl, List.foldl_cons]
            simp only [keepMoreComplete, if_pos hlen]
          · next hlen =>
            rw [ih, hl, List.foldl_cons]
            simp only [keepMoreComplete, if_neg hlen]
      · have hne : ((some j : Option String) == some i) = false := by
          simp [hji]
        rw [hne]
        simp only [Bool.false_eq_true, if_false]
        simp only [dedupStep, he]
        split
        · next hl =>
          rw [ih, lookupMap_append_ne (fun hc => hji hc.symm)]
        · next c hl =>
          split
          · rw [ih, lookupMap_replaceMap_ne (fun hc => hji hc.symm)]
          · exact ih acc i

/-- C5: batch deduplication keeps the record with strictly more fields:
if the records of a batch carrying id `i` are exactly two, with the second
strictly more complete than the first in either order of appearance, the
deduplicated batch keeps the more complete one under id `i` and discards
the other. -/
theorem dedup_keeps_more_complete (batch : List Event) (i : String)
    (e1 e2 : Event)
    (hf : batch.filter (fun e => eid e == some i) = [e1, e2] ∨
          batch.filter (fun e => eid e == some i) = [e2, e1])
    (hlen : e1.length < e2.length) :
    lookupMap (batch.foldl dedupStep []) i = some e2 ∧
    e2 ∈ dedup batch ∧ e1 ∉ dedup batch := by
  have hchar := dedup_lookup_char batch [] i
  have hei1 : eid e1 = some i := by
    have hmem : e1 ∈ batch.filter (fun e => eid e == some i) := by
      rcases hf with hf | hf <;> rw [hf] <;> simp
    have := (List.mem_filter.mp hmem).2
    simpa using this
  have hlook : lookupMap (batch.foldl dedupStep []) i = some e2 := by
    rcases hf with hf | hf
    · rw [hchar, hf]
      show keepMoreComplete (keepMoreComplete (lookupMap [] i) e1) e2 = some e2
      simp only [lookupMap, List.find?_nil, Option.map_none']
      simp only [keepMoreComplete, if_pos hlen]
    · rw [hchar, hf]
      show keepMoreComplete (keepMoreComplete (lookupMap [] i) e2) e1 = some e2
      simp only [lookupMap, List.find?_nil, Option.map_none']
      simp only [keepMoreComplete, if_neg (Nat.lt_asymm hlen)]
  refine ⟨hlook, ?_, ?_⟩
  · unfold dedup
    exact lookupMap_mem_values hlook
  · intro hmem
    unfold dedup at hmem
    obtain ⟨p, hp, hpe⟩ := List.mem_map.mp hmem
    have hpe' : p.2 = e1 := hpe
    have hpinv := dedup_acc_spec.1 p hp
    rw [hpe', hei1] at hpinv
    have hlu : lookupMap (batch.foldl dedupStep []) i = some p.2 :=
      lookupMap_eq_of_nodup dedup_acc_spec.2 hp (by injection hpinv with h; exact h.symm)
    rw [hlook, hpe'] at hlu
    injection hlu with hlu
    rw [← hlu] at hlen
    exact absurd hlen (Nat.lt_irrefl _)

/-- Witness for C5 at a concrete batch: records with 1 and 3 fields
sharing one id, in both orders. -/
theorem dedup_keeps_more_complete_witness :
    lookupMap (([[("id", "x")], [("id", "x"), ("a", "1"), ("b", "2")]] :
      List Event).foldl dedupStep []) "x"
      = some [("id", "x"), ("a", "1"), ("b", "2")] ∧
    [("id", "x"), ("a", "1"), ("b", "2")]
      ∈ dedup [[("id", "x")], [("id", "x"), ("a", "1"), ("b", "2")]] :=
  ⟨(dedup_keeps_more_complete [[("id", "x")], [("id", "x"), ("a", "1"), ("b", "2")]]
      "x" [("id", "x")] [("id", "x"), ("a", "1"), ("b", "2")]
      (Or.inl (by decide)) (by decide)).1,
   (dedup_keeps_more_complete [[("id", "x")], [("id", "x"), ("a", "1"), ("b", "2")]]
      "x" [("id", "x")] [("id", "x"), ("a", "1"), ("b", "2")]
      (Or.inl (by decide)) (by decide)).2.1⟩

theorem scan_fold_char :
    ∀ (l : List Event) (all : List Event) (seen : List String),
      (l.foldl scanStep (all, seen)).1 = all ++ firstSeenDedup seen l := by
  intro l
  induction l with
  | nil => intro all seen; simp [firstSeenDedup]
  | cons e t ih =>
    intro all seen
    rw [List.foldl_cons]
    cases he : eid e with
    | none =>
      simp only [scanStep, he, firstSeenDedup]
      exact ih all seen
    | some i =>
      by_cases hc : seen.contains i
      · simp only [scanStep, he, firstSeenDedup, if_pos hc]
        exact ih all seen
      · simp only [scanStep, he, firstSeenDedup, if_neg hc]
        rw [ih (all ++ [e]) (i :: seen)]
        simp

theorem foldl_scan_join :
    ∀ (ls : List (List Event)) (acc : List Event × List String),
      ls.foldl (fun acc l => l.foldl scanStep acc) acc
        = (ls.flatten).foldl scanStep acc := by
  intro ls
  induction ls with
  | nil => intro acc; rfl
  | cons l rest ih =>
    intro acc
    rw [List.foldl_cons, List.flatten_cons, List.foldl_append]
    exact ih _

theorem firstSeenDedup_mem_eid :
    ∀ (seen : List String) (l : List Event),
      ∀ e ∈ firstSeenDedup seen l, (eid e).isSome := by
  intro seen l
  induction l generalizing seen with
  | nil => intro e he; exact absurd he (by simp [firstSeenDedup])
  | cons x t ih =>
    intro e he
    unfold firstSeenDedup at he
    cases hx : eid x with
    | none =>
      rw [hx] at he
      exact ih seen e he
    | some i =>
      rw [hx] at he
      have he' : e ∈ (if seen.contains i then firstSeenDedup seen t
          else x :: firstSeenDedup (i :: seen) t) := he
      by_cases hc : seen.contains i
      · rw [if_pos hc] at he'
        exact ih seen e he'
      · rw [if_neg hc] at he'
        rcases List.mem_cons.mp he' with he2 | he2
        · rw [he2, hx]; rfl
        · exact ih (i :: seen) e he2

/-- C10: the per-day monthly scan accumulates, over the concatenation of
all day batches, the first record encountered for each id — every later
record with the same id is discarded regardless of completeness — and
drops every record lacking a truthy id. -/
theorem monthly_scan_first_seen (days : List DayRes) :
    monthlyScan days = firstSeenDedup [] ((days.map dayEventsOf).flatten) ∧
    (∀ e ∈ monthlyScan days, (eid e).isSome) := by
  have h1 : monthlyScan days = firstSeenDedup [] ((days.map dayEventsOf).flatten) := by
    unfold monthlyScan
    rw [← List.foldl_map, foldl_scan_join, scan_fold_char]
    simp
  refine ⟨h1, ?_⟩
  rw [h1]
  exact firstSeenDedup_mem_eid [] _

/-- Witness for C10 at a concrete two-day scan: a duplicate id across days
keeps the first (less complete) version, and an id-less record is
dropped. -/
theorem monthly_scan_first_seen_witness :
    monthlyScan [DayRes.items [⟨false, some [[("id", "1")], [("nm", "z")]], []⟩],
        DayRes.items [⟨false, some [[("id", "1"), ("a", "b")]], []⟩]]
      = firstSeenDedup []
        (([[[("id", "1")], [("nm", "z")]], [[("id", "1"), ("a", "b")]]] :
          List (List Event)).flatten) ∧
    (eid [("id", "1")]).isSome := by
  have h := monthly_scan_first_seen
    [DayRes.items [⟨false, some [[("id", "1")], [("nm", "z")]], []⟩],
     DayRes.items [⟨false, some [[("id", "1"), ("a", "b")]], []⟩]]
  exact ⟨h.1, h.2 [("id", "1")] (by decide)⟩

/-- C3: the claim "the transport session is released on every exit path of
the run once authentication succeeded" fails on the code: when
authentication succeeds and the fetch stage yields no events data,
`execute` returns `False` at line 84 and never reaches the `_cleanup` call
of line 97, leaving the session unreleased. -/
theorem execute_no_cleanup_on_empty_fetch :
    executeModel detailAllErr ⟨true, none, []⟩
      = ⟨false, false, []⟩ := by decide

/-- C4 (counterexample): the claim "if the fast-path day fetch errors, the
engine falls back to the range fetch (get_calendar_events)" fails on the
code: with an erroring panel response the fetch stage issues only the
panel call and the per-day scan calls — the range call of line 121 is
commented out and never appears in the trace. -/
theorem fetch_fallback_no_range_call :
    (ApiRes.errDict "HTTP 500").isErr = true ∧
    (fetchCalendarEvents (.errDict "HTTP 500") false
      [DayRes.items [⟨false, some [[("id", "1")]], []⟩]]).2
      = [FetchCall.panelToday, FetchCall.panelDay] ∧
    FetchCall.rangeFetch ∉ (fetchCalendarEvents (.errDict "HTTP 500") false
      [DayRes.items [⟨false, some [[("id", "1")]], []⟩]]).2 := by decide

/-- C4 (amended): the fetch stage never issues the range call
(get_calendar_events); on a fast-path error or a forced resync it falls
back directly to the per-day scan over every day of the current month, and
otherwise it issues only the fast-path panel call. -/
theorem fetch_fallback_chain (panel : ApiRes) (resync : Bool)
    (days : List DayRes) :
    FetchCall.rangeFetch ∉ (fetchCalendarEvents panel resync days).2 ∧
    ((panel.isErr || resync) = true →
      (fetchCalendarEvents panel resync days).2
        = FetchCall.panelToday :: days.map (fun _ => FetchCall.panelDay)) ∧
    ((panel.isErr || resync) = false →
      (fetchCalendarEvents panel resync days).2 = [FetchCall.panelToday]) := by
  unfold fetchCalendarEvents
  by_cases h : (panel.isErr || resync) = true
  · rw [if_pos h]
    refine ⟨?_, fun _ => rfl, fun hc => absurd h (by simp [hc])⟩
    intro hmem
    rcases List.mem_cons.mp hmem with h1 | h1
    · exact absurd h1 (by simp)
    · obtain ⟨d, _, hd⟩ := List.mem_map.mp h1
      exact absurd hd (by simp)
  · rw [if_neg h]
    refine ⟨?_, fun hc => absurd hc h, fun _ => rfl⟩
    intro hmem
    rw [List.mem_singleton] at hmem
    exact absurd hmem (by simp)

/-- Witness for C4's amended theorem at a concrete erroring panel
response. -/
theorem fetch_fallback_chain_witness :
    (fetchCalendarEvents (.errDict "HTTP 500") false [DayRes.raised]).2
      = [FetchCall.panelToday, FetchCall.panelDay] :=
  (fetch_fallback_chain (.errDict "HTTP 500") false [DayRes.raised]).2.1 rfl

/-- C8: the claim "a save of the period store is all-or-nothing: a failed
write leaves the previously persisted content intact" fails on the code:
`_save_events` opens the target with a truncating write (mode `'w'`) and
streams the serialization; a write failing right after the truncation
leaves an empty file — neither the old content nor the new serialization. -/
theorem save_truncates_previous_content :
    ¬(saveEventsFile "[(id=1)]" [[("id", "1"), ("type", "Live")]] (some 0)
        = "[(id=1)]" ∨
      saveEventsFile "[(id=1)]" [[("id", "1"), ("type", "Live")]] (some 0)
        = serializeEvents [[("id", "1"), ("type", "Live")]]) := by decide

/-- C9 (counterexample): the claim "a record lacking both id and type is
skipped; every other record triggers a fetchEventDetail call" fails on the
code: a record carrying an id but no type does not lack both, yet
`_fetch_event_details` (guard `not event_id or not event_type`, line 341)
issues no detail call for it and passes it through unchanged. -/
theorem enrich_skips_record_with_id_no_type :
    (eid [("id", "1")]).isSome = true ∧
    (fetchEventDetailsT detailAddLocal [[("id", "1")]]).2 = [] ∧
    (fetchEventDetailsT detailAddLocal [[("id", "1")]]).1 = [[("id", "1")]] := by
  decide

/-- C9 (amended): the enrichment stage maps each record through the
per-record enrichment — records lacking a truthy id or a truthy type are
passed through unchanged without a detail call, exactly the records with
both id and type trigger a detail call, a record whose detail call errors
keeps its base version, every input record appears in the output in
order, and per-record enrichment failures never flip the run result: an
authenticated run with a successful fetch returns overall success
whatever the detail environment does. -/
theorem enrichment_stage_contract (detail : Event → DetailRes)
    (events : List Event) :
    (fetchEventDetailsT detail events).1 = events.map (enrichOne detail) ∧
    (fetchEventDetailsT detail events).2
      = events.filter (fun e => !((eid e).isNone || (etype e).isNone)) ∧
    (∀ e, ((eid e).isNone || (etype e).isNone) = true → enrichOne detail e = e) ∧
    (∀ e, detail e = .errRes → enrichOne detail e = e) ∧
    (∀ store batch, (executeModel detail ⟨true, some batch, store⟩).success
      = true) := by
  refine ⟨?_, ?_, ?_, ?_, ?_⟩
  · unfold fetchEventDetailsT
    rw [fetchEventDetailsT_spec]
    simp
  · unfold fetchEventDetailsT
    rw [fetchEventDetailsT_spec]
    simp
  · intro e hg
    unfold enrichOne
    rw [if_pos hg]
  · intro e hd
    unfold enrichOne
    split
    · rfl
    · simp [hd]
  · intro store batch
    rfl

/-- Witness for C9's amended theorem: an all-error detail environment on a
complete record, and a run reporting success despite it. -/
theorem enrichment_stage_contract_witness :
    (fetchEventDetailsT detailAllErr [[("id", "1"), ("type", "T")]]).1
      = [[("id", "1"), ("type", "T")]].map (enrichOne detailAllErr) ∧
    (executeModel detailAllErr ⟨true, some [[("id", "1")]], []⟩).success = true :=
  ⟨(enrichment_stage_contract detailAllErr [[("id", "1"), ("type", "T")]]).1,
   (enrichment_stage_contract detailAllErr []).2.2.2.2 [] [[("id", "1")]]⟩

/-- Invariant of the login attempt loop: at attempt `a` with `fuel`
attempts remaining (`a + fuel = maxR + 1`), the loop makes at most `maxR`
attempts and at least up to the current one, a backoff of 2 seconds is
recorded exactly after the non-final attempts that raised a transport
exception, and the loop returns `False` whenever no remaining attempt
yields a truthy session token. -/
theorem loginAux_spec (att : Nat → AttemptRes) (maxR : Nat) :
    ∀ (fuel a : Nat) (sleeps : List (Nat × Nat)), a + fuel = maxR + 1 → 1 ≤ a →
      ((loginAux att maxR a fuel sleeps).attemptsMade ≤ maxR ∧
       a - 1 ≤ (loginAux att maxR a fuel sleeps).attemptsMade ∧
       (1 ≤ fuel → a ≤ (loginAux att maxR a fuel sleeps).attemptsMade)) ∧
      (∀ j s, (j, s) ∈ (loginAux att maxR a fuel sleeps).sleeps ↔
        ((j, s) ∈ sleeps ∨ (s = 2 ∧ a ≤ j ∧
          j < (loginAux att maxR a fuel sleeps).attemptsMade ∧
          isExn (att j) = true))) ∧
      ((∀ j, a ≤ j → j ≤ maxR → tokOf (att j) = none) →
        (loginAux att maxR a fuel sleeps).success = false) := by
  intro fuel
  induction fuel with
  | zero =>
    intro a sleeps hsum ha
    refine ⟨⟨?_, ?_, ?_⟩, ?_, fun _ => rfl⟩
    · show a - 1 ≤ maxR
      omega
    · show a - 1 ≤ a - 1
      omega
    · intro hf
      exact absurd hf (by omega)
    · intro j s
      show (j, s) ∈ sleeps ↔
        ((j, s) ∈ sleeps ∨ (s = 2 ∧ a ≤ j ∧ j < a - 1 ∧ isExn (att j) = true))
      constructor
      · intro h
        exact Or.inl h
      · rintro (h | ⟨h2, haj, hjm, hexn⟩)
        · exact h
        · omega
  | succ fuel ih =>
    intro a sleeps hsum ha
    have haR : a ≤ maxR := by omega
    cases hatt : att a with
    | invalidCreds =>
      simp only [loginAux, hatt]
      by_cases hae : a = maxR
      · rw [if_pos hae]
        refine ⟨⟨?_, ?_, ?_⟩, ?_, fun _ => rfl⟩
        · show a ≤ maxR
          omega
        · show a - 1 ≤ a
          omega
        · intro _
          show a ≤ a
          omega
        · intro j s
          show (j, s) ∈ sleeps ↔
            ((j, s) ∈ sleeps ∨ (s = 2 ∧ a ≤ j ∧ j < a ∧ isExn (att j) = true))
          constructor
          · intro h
            exact Or.inl h
          · rintro (h | ⟨h2, haj, hjm, hexn⟩)
            · exact h
            · omega
      · rw [if_neg hae]
        have hrec := ih (a + 1) sleeps (by omega) (by omega)
        have hfuel : 1 ≤ fuel := by omega
        have hmade := hrec.1.2.2 hfuel
        refine ⟨⟨hrec.1.1, by omega, fun _ => by omega⟩, ?_, ?_⟩
        · intro j s
          rw [hrec.2.1 j s]
          constructor
          · rintro (h | ⟨h2, hj, hjm, hexn⟩)
            · exact Or.inl h
            · exact Or.inr ⟨h2, by omega, hjm, hexn⟩
          · rintro (h | ⟨h2, hj, hjm, hexn⟩)
            · exact Or.inl h
            · refine Or.inr ⟨h2, ?_, hjm, hexn⟩
              rcases Nat.eq_or_lt_of_le hj with hje | hlt
              · exfalso
                rw [← hje, hatt] at hexn
                exact absurd hexn (by simp [isExn])
              · omega
        · intro htk
          exact hrec.2.2 (fun j hj1 hj2 => htk j (by omega) hj2)
    | exn msg =>
      simp only [loginAux, hatt]
      by_cases hae : a = maxR
      · rw [if_pos hae]
        refine ⟨⟨?_, ?_, ?_⟩, ?_, fun _ => rfl⟩
        · show a ≤ maxR
          omega
        · show a - 1 ≤ a
          omega
        · intro _
          show a ≤ a
          omega
        · intro j s
          show (j, s) ∈ sleeps ↔
            ((j, s) ∈ sleeps ∨ (s = 2 ∧ a ≤ j ∧ j < a ∧ isExn (att j) = true))
          constructor
          · intro h
            exact Or.inl h
          · rintro (h | ⟨h2, haj, hjm, hexn⟩)
            · exact h
            · omega
      · rw [if_neg hae]
        have hrec := ih (a + 1) (sleeps ++ [(a, 2)]) (by omega) (by omega)
        have hfuel : 1 ≤ fuel := by omega
        have hmade := hrec.1.2.2 hfuel
        refine ⟨⟨hrec.1.1, by omega, fun _ => by omega⟩, ?_, ?_⟩
        · intro j s
          rw [hrec.2.1 j s]
          constructor
          · rintro (h | ⟨h2, hj, hjm, hexn⟩)
            · rcases List.mem_append.mp h with h | h
              · exact Or.inl h
              · have heq := List.mem_singleton.mp h
                rw [Prod.mk.injEq] at heq
                refine Or.inr ⟨heq.2, by omega, by omega, ?_⟩
                rw [heq.1, hatt]
                rfl
            · exact Or.inr ⟨h2, by omega, hjm, hexn⟩
          · rintro (h | ⟨h2, hj, hjm, hexn⟩)
            · exact Or.inl (List.mem_append.mpr (Or.inl h))
            · rcases Nat.eq_or_lt_of_le hj with hje | hlt
              · refine Or.inl (List.mem_append.mpr (Or.inr ?_))
                rw [List.mem_singleton, Prod.mk.injEq]
                exact ⟨hje.symm, h2⟩
              · exact Or.inr ⟨h2, by omega, hjm, hexn⟩
        · intro htk
          exact hrec.2.2 (fun j hj1 hj2 => htk j (by omega) hj2)
    | httpOk sk =>
      simp only [loginAux, hatt]
      by_cases htok : (tokOf (AttemptRes.httpOk sk)).isSome
      · rw [if_pos htok]
        refine ⟨⟨?_, ?_, ?_⟩, ?_, ?_⟩
        · show a ≤ maxR
          omega
        · show a - 1 ≤ a
          omega
        · intro _
          show a ≤ a
          omega
        · intro j s
          show (j, s) ∈ sleeps ↔
            ((j, s) ∈ sleeps ∨ (s = 2 ∧ a ≤ j ∧ j < a ∧ isExn (att j) = true))
          constructor
          · intro h
            exact Or.inl h
          · rintro (h | ⟨h2, haj, hjm, hexn⟩)
            · exact h
            · omega
        · intro htk
          have hx := htk a (by omega) haR
          rw [hatt] at hx
          rw [hx] at htok
          exact absurd htok (by simp)
      · rw [if_neg htok]
        have hrec := ih (a + 1) sleeps (by omega) (by omega)
        refine ⟨⟨hrec.1.1, by omega, ?_⟩, ?_, ?_⟩
        · intro _
          have := hrec.1.2.1
          omega
        · intro j s
          rw [hrec.2.1 j s]
          constructor
          · rintro (h | ⟨h2, hj, hjm, hexn⟩)
            · exact Or.inl h
            · exact Or.inr ⟨h2, by omega, hjm, hexn⟩
          · rintro (h | ⟨h2, hj, hjm, hexn⟩)
            · exact Or.inl h
            · refine Or.inr ⟨h2, ?_, hjm, hexn⟩
              rcases Nat.eq_or_lt_of_le hj with hje | hlt
              · exfalso
                rw [← hje, hatt] at hexn
                exact absurd hexn (by simp [isExn])
              · omega
        · intro htk
          exact hrec.2.2 (fun j hj1 hj2 => htk j (by omega) hj2)
    | httpOther =>
      simp only [loginAux, hatt]
      have hrec := ih (a + 1) sleeps (by omega) (by omega)
      refine ⟨⟨hrec.1.1, by omega, ?_⟩, ?_, ?_⟩
      · intro _
        have := hrec.1.2.1
        omega
      · intro j s
        rw [hrec.2.1 j s]
        constructor
        · rintro (h | ⟨h2, hj, hjm, hexn⟩)
          · exact Or.inl h
          · exact Or.inr ⟨h2, by omega, hjm, hexn⟩
        · rintro (h | ⟨h2, hj, hjm, hexn⟩)
          · exact Or.inl h
          · refine Or.inr ⟨h2, ?_, hjm, hexn⟩
            rcases Nat.eq_or_lt_of_le hj with hje | hlt
            · exfalso
              rw [← hje, hatt] at hexn
              exact absurd hexn (by simp [isExn])
            · omega
      · intro htk
        exact hrec.2.2 (fun j hj1 hj2 => htk j (by omega) hj2)

/-- C7: `FIAPSession.login` makes at most `max_retries` attempts, records
a fixed 2-second backoff exactly after the non-final attempts that raised
a transport exception, and returns `False` whenever no attempt within the
retry budget yields a truthy session token — the caller observes only the
boolean. -/
theorem login_boundary (att : Nat → AttemptRes) (maxR : Nat) :
    (login att maxR).attemptsMade ≤ maxR ∧
    (∀ j s, (j, s) ∈ (login att maxR).sleeps ↔
      (s = 2 ∧ 1 ≤ j ∧ j < (login att maxR).attemptsMade ∧
        isExn (att j) = true)) ∧
    ((∀ j, 1 ≤ j → j ≤ maxR → tokOf (att j) = none) →
      (login att maxR).success = false) := by
  have h := loginAux_spec att maxR maxR 1 [] (by omega) (by omega)
  unfold login
  refine ⟨h.1.1, ?_, h.2.2⟩
  intro j s
  rw [h.2.1 j s]
  simp

/-- Witness for C7 at three attempts that all raise transport
exceptions. -/
theorem login_boundary_witness :
    (login attAllExn 3).success = false ∧
    (login attAllExn 3).attemptsMade ≤ 3 := by
  have h := login_boundary attAllExn 3
  exact ⟨h.2.2 (fun j hj1 hj2 => rfl), h.1⟩

/-- Witness for C6 at a concrete store and batch: one already-known id and
one new id. -/
theorem new_set_characterization_witness :
    (processEvents [[("id", "1"), ("old", "v")]]
        [[("id", "1"), ("a", "b")], [("id", "2")]]).newRecs = [[("id", "2")]] ∧
    firstMatch ((processEvents [[("id", "1"), ("old", "v")]]
        [[("id", "1"), ("a", "b")], [("id", "2")]]).store) "1"
      = some [("id", "1"), ("a", "b")] := by
  have h := new_set_characterization [[("id", "1"), ("old", "v")]]
    [[("id", "1"), ("a", "b")], [("id", "2")]]
  refine ⟨?_, ?_⟩
  · rw [h.1]
    decide
  · exact (h.2 [("id", "1"), ("a", "b")] (by decide) "1" (by decide) (by decide)).1

end Fiapinho
